import Mathlib

/-!
Verification of the ASVspoof LFCC-ResNet-OCsoftmax model
(`project/02-asvspoof/lfcc-restnet-ocsoftmax/model.py`).

The development shallowly embeds the scoring-pipeline core of `Model`:

* the mean/std preparation and the three affine normalization methods,
* the protocol-listing parser and the target resolver,
* the per-row body of the feature framer `_front_end` (random crop /
  tile-and-trim), with the ambient random draw made an explicit rational
  parameter `r` in `[0,1)`,
* the ensemble embedding computer `_compute_embedding` and the angular
  scorer `_compute_score`, with the external per-member pipelines
  (feature extractor composed with backbone) and the per-member angular
  projections abstracted as function parameters, since only the row
  layout is in question,
* the two branches of `forward` (training / inference).

Tensors are modelled as lists (the batch axis) of values; numeric values
are exact rationals.  Fatal `sys.exit(1)` calls are modelled as the
`Except.error` branch carrying the data the code prints.  The Python
`ZeroDivisionError` in the tiling branch is modelled as `Option.none`.
-/

namespace AsvModel

/-- The four normalization statistics vectors of `Model`
(`input_mean`, `input_std`, `output_mean`, `output_std`). -/
structure MeanStd where
  in_m : List ℚ
  in_s : List ℚ
  out_m : List ℚ
  out_s : List ℚ
deriving DecidableEq

/-- Embedding of `Model.prepare_mean_std`.  With supplied statistics it checks the
dimensions and exits fatally on mismatch; with `none` it returns the
source's defaults, literally: `in_m = zeros`, `in_s = zeros`,
`out_m = ones`, `out_s = ones` (model.py lines 158-162). -/
def prepare_mean_std (in_dim out_dim : Nat) (data_mean_std : Option MeanStd) :
    Except Unit MeanStd :=
  match data_mean_std with
  | some ms =>
      if ms.in_m.length ≠ in_dim ∨ ms.in_s.length ≠ in_dim then
        Except.error ()
      else if ms.out_m.length ≠ out_dim ∨ ms.out_s.length ≠ out_dim then
        Except.error ()
      else
        Except.ok ms
  | none =>
      Except.ok ⟨List.replicate in_dim 0, List.replicate in_dim 0,
                 List.replicate out_dim 1, List.replicate out_dim 1⟩

/-- Embedding of `Model.normalize_input`: `(x - input_mean) / input_std`, elementwise. -/
def normalize_input (ms : MeanStd) (x : List ℚ) : List ℚ :=
  List.zipWith (fun xi p => (xi - p.1) / p.2) x (ms.in_m.zip ms.in_s)

/-- Embedding of `Model.normalize_target`: `(y - output_mean) / output_std`, elementwise. -/
def normalize_target (ms : MeanStd) (y : List ℚ) : List ℚ :=
  List.zipWith (fun yi p => (yi - p.1) / p.2) y (ms.out_m.zip ms.out_s)

/-- Embedding of `Model.denormalize_output`: `y * output_std + output_mean`, elementwise. -/
def denormalize_output (ms : MeanStd) (y : List ℚ) : List ℚ :=
  List.zipWith (fun yi p => yi * p.2 + p.1) y (ms.out_m.zip ms.out_s)

/-- Embedding of `Model._protocol_parse`.  The protocol listing is a list of
whitespace-split rows; for each row the dictionary entry keyed on
`row[1]` (the second column) is set to `1` when the last column is the
string `"bonafide"` and to `0` otherwise.  Later rows overwrite earlier
ones, exactly as repeated dictionary assignment does. -/
def protocol_parse (rows : List (List String)) : String → Option Nat :=
  rows.foldl
    (fun buf row => fun k =>
      if k = row.getD 1 "" then
        some (if row.getLast? = some "bonafide" then 1 else 0)
      else buf k)
    (fun _ => none)

/-- Embedding of `Model._get_target`: look every filename up in the protocol table;
the first `KeyError` aborts the comprehension and the code prints the
whole requested filename list and exits fatally — modelled as
`Except.error filenames`. -/
def get_target (ptable : String → Option Nat) (filenames : List String) :
    Except (List String) (List Nat) :=
  if filenames.all (fun f => (ptable f).isSome) then
    Except.ok (filenames.map (fun f => (ptable f).getD 0))
  else
    Except.error filenames

/-- The start offset of the random-crop branch of `Model._front_end`:
`pos = floor(rand() * (true_frame_num - trunc_len))` cast to an integer
index, where the ambient draw `r` lies in `[0,1)`. -/
def crop_pos (r : ℚ) (T L : Nat) : Nat :=
  (⌊r * ((T - L : Nat) : ℚ)⌋).toNat

/-- The per-row body of the loop in `Model._front_end` (model.py lines
213-226).  `x` is row `fileidx` of the extracted feature map (a frame
index to frame content function), `hop` the member's frame hop,
`trunc_len` its truncation length, `dlen` the row's raw sample count,
and `r` the ambient random draw.  `true_frame_num = dlen // hop`.
If `true_frame_num > trunc_len` the row is cropped at `crop_pos`;
otherwise the first `true_frame_num` frames are repeated
`ceil(trunc_len / true_frame_num)` times and trimmed to `trunc_len`
frames.  When `true_frame_num = 0` that `ceil` divides by zero — a
Python `ZeroDivisionError`, modelled as `none`. -/
def frameRow {α : Type} (r : ℚ) (x : Nat → α) (hop trunc_len dlen : Nat) :
    Option (List α) :=
  let T := dlen / hop
  if T > trunc_len then
    let pos := crop_pos r T trunc_len
    some ((List.range trunc_len).map (fun j => x (pos + j)))
  else if T = 0 then
    none
  else
    let rep := (trunc_len + T - 1) / T
    some (((List.range (rep * T)).map (fun j => x (j % T))).take trunc_len)

/-- Embedding of `Model._compute_embedding` (model.py lines 234-265), with each
member's feature-extractor-plus-backbone pipeline abstracted as a
function on one batch row.  The source preallocates a
`batch * v_submodels` row buffer and writes member `idx`'s embeddings
into rows `[idx*batch, (idx+1)*batch)`; concatenating the per-member
blocks in member order produces exactly that buffer. -/
def compute_embedding {α β : Type} (members : List (α → β)) (batch : List α) :
    List β :=
  (members.map (fun m => batch.map m)).flatten

/-- The slice loop of `Model._compute_score`: member `idx` consumes the
rows `[idx*B, (idx+1)*B)` of the embedding buffer and its cosine/phi
pair is written to the same row range of the output buffers. -/
def compute_score_rows {β : Type} (angles : List (β → Bool → ℚ × ℚ))
    (ang : Bool) (B : Nat) (fv : List β) : List (ℚ × ℚ) :=
  match angles with
  | [] => []
  | a :: rest =>
      (fv.take B).map (fun v => a v ang) ++
        compute_score_rows rest ang B (fv.drop B)

/-- Embedding of `Model._compute_score` (model.py lines 267-283): `B` is recovered as
`rows // v_submodels`, and the result is the pair of the cosine column
and the margin-adjusted (phi) column, in the embedding buffer's row
layout. -/
def compute_score {β : Type} (angles : List (β → Bool → ℚ × ℚ))
    (fv : List β) (ang : Bool) : List ℚ × List ℚ :=
  let B := fv.length / angles.length
  let rows := compute_score_rows angles ang B fv
  (rows.map Prod.fst, rows.map Prod.snd)

/-- Embedding of `target_vec.repeat(self.v_submodels)`: a 1-D `torch.Tensor.repeat`
concatenates `N` copies of the vector. -/
def target_repeat (labels : List Nat) (N : Nat) : List Nat :=
  (List.replicate N labels).flatten

/-- Embedding of `score.mean()`: the arithmetic mean over every entry of the buffer. -/
def listMean (l : List ℚ) : ℚ :=
  l.sum / l.length

/-- The `self.training` branch of `Model.forward` (model.py lines
305-315): embeddings, scores without margin, resolved targets replicated
once per submodel, and the completion flag `True`. -/
def forward_train {α β : Type} (members : List (α → β))
    (angles : List (β → Bool → ℚ × ℚ)) (ptable : String → Option Nat)
    (batch : List α) (filenames : List String) :
    Except (List String) ((List ℚ × List ℚ) × List Nat × Bool) :=
  let fv := compute_embedding members batch
  let act := compute_score angles fv false
  (get_target ptable filenames).map
    (fun tgt => (act, target_repeat tgt members.length, true))

/-- The inference branch of `Model.forward` (model.py lines 317-325):
scores with margin, keep the cosine column, and print a single line
`filenames[0], target[0], score.mean()`; the emitted lines are modelled
as a list of (filename, label, score) triples. -/
def forward_infer {α β : Type} (members : List (α → β))
    (angles : List (β → Bool → ℚ × ℚ)) (ptable : String → Option Nat)
    (batch : List α) (filenames : List String) :
    Except (List String) (List (String × Nat × ℚ)) :=
  let fv := compute_embedding members batch
  let score := (compute_score angles fv true).1
  (get_target ptable filenames).map
    (fun tgt => [(filenames.getD 0 "", tgt.getD 0 0, listMean score)])

/-! ### Helper lemmas -/

/-- Elementwise round trip of the output-side affine maps over a zipped
mean/std pair list. -/
theorem zipWith_affine_roundtrip :
    ∀ (y : List ℚ) (ps : List (ℚ × ℚ)), y.length ≤ ps.length →
      (∀ p ∈ ps, p.2 ≠ 0) →
      List.zipWith (fun yi p => yi * p.2 + p.1)
        (List.zipWith (fun yi p => (yi - p.1) / p.2) y ps) ps = y
  | [], _, _, _ => by simp
  | yi :: ys, [], h, _ => by simp at h
  | yi :: ys, p :: ps, h, hs => by
      have hp : p.2 ≠ 0 := hs p (List.mem_cons_self _ _)
      have ih := zipWith_affine_roundtrip ys ps (by simpa using h)
        (fun q hq => hs q (List.mem_cons_of_mem _ hq))
      simp only [List.zipWith_cons_cons, ih, div_mul_cancel₀ _ hp,
        sub_add_cancel]

/-- The crop offset is strictly below `T - L` whenever the draw is in
`[0,1)` and the crop branch's guard `L < T` holds. -/
theorem crop_pos_lt (r : ℚ) (T L : Nat) (hr0 : 0 ≤ r) (hr1 : r < 1)
    (hTL : L < T) : crop_pos r T L < T - L := by
  have hD : (0 : ℚ) < ((T - L : Nat) : ℚ) := by
    have h : 0 < T - L := by omega
    exact_mod_cast h
  have hmul : r * ((T - L : Nat) : ℚ) < ((T - L : Nat) : ℚ) := by
    calc r * ((T - L : Nat) : ℚ) < 1 * ((T - L : Nat) : ℚ) :=
          mul_lt_mul_of_pos_right hr1 hD
    _ = ((T - L : Nat) : ℚ) := one_mul _
  have hnn : (0 : ℚ) ≤ r * ((T - L : Nat) : ℚ) :=
    mul_nonneg hr0 (le_of_lt hD)
  have hfl0 : 0 ≤ ⌊r * ((T - L : Nat) : ℚ)⌋ := Int.floor_nonneg.mpr hnn
  have hflD : ⌊r * ((T - L : Nat) : ℚ)⌋ < ((T - L : Nat) : ℤ) := by
    rw [Int.floor_lt]
    exact_mod_cast hmul
  unfold crop_pos
  omega

/-- Every offset strictly below `T - L` is attained by some draw in
`[0,1)`: the draw `k / (T - L)` selects offset `k`. -/
theorem crop_pos_achieves (k T L : Nat) (hk : k < T - L) :
    0 ≤ ((k : ℚ) / ((T - L : Nat) : ℚ)) ∧
    ((k : ℚ) / ((T - L : Nat) : ℚ)) < 1 ∧
    crop_pos ((k : ℚ) / ((T - L : Nat) : ℚ)) T L = k := by
  have hD : (0 : ℚ) < ((T - L : Nat) : ℚ) := by
    have h : 0 < T - L := by omega
    exact_mod_cast h
  have hkD : (k : ℚ) < ((T - L : Nat) : ℚ) := by exact_mod_cast hk
  refine ⟨div_nonneg (by positivity) (le_of_lt hD), ?_, ?_⟩
  · rw [div_lt_one hD]
    exact hkD
  · unfold crop_pos
    rw [div_mul_cancel₀ _ (ne_of_gt hD)]
    rw [Int.floor_natCast]
    exact Int.toNat_natCast k

/-- Lower bound for the tiling branch's repeat count:
`ceil(a / b) * b ≥ a`. -/
theorem ceil_div_mul_ge (a b : Nat) (hb : 0 < b) :
    a ≤ ((a + b - 1) / b) * b := by
  have h1 : b * ((a + b - 1) / b) + (a + b - 1) % b = a + b - 1 :=
    Nat.div_add_mod (a + b - 1) b
  have h2 : (a + b - 1) % b < b := Nat.mod_lt _ hb
  rw [Nat.mul_comm]
  omega

/-- Length of a flattened list of blocks of equal length `B`. -/
theorem flatten_length_uniform {γ : Type} :
    ∀ (ls : List (List γ)) (B : Nat), (∀ l ∈ ls, l.length = B) →
      ls.flatten.length = ls.length * B
  | [], _, _ => by simp
  | hd :: tl, B, h => by
      have h1 : hd.length = B := h hd (List.mem_cons_self _ _)
      have h2 := flatten_length_uniform tl B
        (fun l hl => h l (List.mem_cons_of_mem _ hl))
      simp only [List.flatten_cons, List.length_append, List.length_cons,
        h1, h2, Nat.succ_mul]
      omega

/-- Indexing a flattened list of equal-length blocks: position
`i * B + b` lands in block `i` at offset `b`. -/
theorem flatten_getElem_uniform {γ : Type} :
    ∀ (ls : List (List γ)) (B i b : Nat)
      (h : ∀ l ∈ ls, l.length = B) (hi : i < ls.length), b < B →
      ls.flatten[i * B + b]? = (ls.get ⟨i, hi⟩)[b]?
  | hd :: tl, B, 0, b, h, hi, hb => by
      have h1 : hd.length = B := h hd (List.mem_cons_self _ _)
      rw [List.flatten_cons, Nat.zero_mul, Nat.zero_add,
        List.getElem?_append_left (by omega)]
      rfl
  | hd :: tl, B, i + 1, b, h, hi, hb => by
      have h1 : hd.length = B := h hd (List.mem_cons_self _ _)
      have h2 : (i + 1) * B + b = hd.length + (i * B + b) := by
        rw [Nat.succ_mul]; omega
      rw [List.flatten_cons, h2, List.getElem?_append_right (by omega),
        Nat.add_sub_cancel_left]
      exact flatten_getElem_uniform tl B i b
        (fun l hl => h l (List.mem_cons_of_mem _ hl))
        (Nat.lt_of_succ_lt_succ hi) hb

/-- The function `compute_score_rows` preserves the row count when the embedding
buffer has exactly `angles.length * B` rows. -/
theorem compute_score_rows_length {β : Type} :
    ∀ (angles : List (β → Bool → ℚ × ℚ)) (ang : Bool) (B : Nat)
      (fv : List β), fv.length = angles.length * B →
      (compute_score_rows angles ang B fv).length = fv.length
  | [], _, _, fv, h => by
      simp only [compute_score_rows, List.length_nil]
      simp only [List.length_nil, Nat.zero_mul] at h
      omega
  | a :: rest, ang, B, fv, h => by
      have hB : B ≤ fv.length := by
        simp only [List.length_cons, Nat.succ_mul] at h
        omega
      have hdrop : (fv.drop B).length = rest.length * B := by
        simp only [List.length_drop]
        simp only [List.length_cons, Nat.succ_mul] at h
        omega
      have ih := compute_score_rows_length rest ang B (fv.drop B) hdrop
      simp only [compute_score_rows, List.length_append, List.length_map,
        List.length_take, Nat.min_eq_left hB, ih, List.length_drop]
      omega

/-- Row `i * B + b` of `compute_score_rows` is member `i`'s projection
applied to row `i * B + b` of the embedding buffer. -/
theorem compute_score_rows_getElem {β : Type} :
    ∀ (angles : List (β → Bool → ℚ × ℚ)) (ang : Bool) (B : Nat)
      (fv : List β) (i b : Nat), fv.length = angles.length * B →
      (hi : i < angles.length) → b < B →
      (compute_score_rows angles ang B fv)[i * B + b]? =
        Option.map (fun v => (angles.get ⟨i, hi⟩) v ang) fv[i * B + b]?
  | a :: rest, ang, B, fv, 0, b, hfv, hi, hb => by
      have hB : B ≤ fv.length := by
        simp only [List.length_cons, Nat.succ_mul] at hfv
        omega
      have hlt : b < ((fv.take B).map (fun v => a v ang)).length := by
        simp only [List.length_map, List.length_take, Nat.min_eq_left hB]
        exact hb
      rw [compute_score_rows, Nat.zero_mul, Nat.zero_add,
        List.getElem?_append_left hlt, List.getElem?_map,
        List.getElem?_take_of_lt hb]
      rfl
  | a :: rest, ang, B, fv, i + 1, b, hfv, hi, hb => by
      have hB : B ≤ fv.length := by
        simp only [List.length_cons, Nat.succ_mul] at hfv
        omega
      have hlen1 : ((fv.take B).map (fun v => a v ang)).length = B := by
        simp only [List.length_map, List.length_take, Nat.min_eq_left hB]
      have h2 : (i + 1) * B + b =
          ((fv.take B).map (fun v => a v ang)).length + (i * B + b) := by
        rw [hlen1, Nat.succ_mul]; omega
      have hdrop : (fv.drop B).length = rest.length * B := by
        simp only [List.length_drop]
        simp only [List.length_cons, Nat.succ_mul] at hfv
        omega
      have ih := compute_score_rows_getElem rest ang B (fv.drop B) i b hdrop
        (Nat.lt_of_succ_lt_succ hi) hb
      rw [compute_score_rows, h2, List.getElem?_append_right (by omega),
        Nat.add_sub_cancel_left, ih, List.getElem?_drop]
      have h3 : B + (i * B + b) = (i + 1) * B + b := by
        rw [Nat.succ_mul]; omega
      rw [h3, ← h2]
      rfl

/-! ### Claims -/

/-- Claim C1 (code bug evaluation).  The claim says the construction
with `mean_std = None` makes all three normalization maps the identity.
The source's defaults are `in_m = zeros`, `in_s = zeros`, `out_m = ones`,
`out_s = ones` (model.py lines 158-162), so `normalize_input` divides by
a zero std and `normalize_target` / `denormalize_output` shift by one:
at `y = [5]` they produce `[4]` and `[6]`, not `[5]`. -/
theorem claim_C1_code_bug :
    prepare_mean_std 1 1 none =
      Except.ok ⟨[0], [0], [1], [1]⟩ ∧
    normalize_target ⟨[0], [0], [1], [1]⟩ [5] = [4] ∧
    denormalize_output ⟨[0], [0], [1], [1]⟩ [5] = [6] ∧
    normalize_input ⟨[0], [0], [1], [1]⟩ [5] ≠ [5] := by
  refine ⟨rfl, ?_, ?_, ?_⟩ <;> simp [normalize_target, denormalize_output, normalize_input] <;> norm_num

/-- Claim C9: the output-side affine normalization and its inverse
compose to the identity, over exact arithmetic, whenever the supplied
output std has no zero component and the statistics cover the vector. -/
theorem claim_C9 (ms : MeanStd) (y : List ℚ)
    (h1 : y.length ≤ ms.out_m.length) (h2 : y.length ≤ ms.out_s.length)
    (hs : ∀ s ∈ ms.out_s, s ≠ 0) :
    denormalize_output ms (normalize_target ms y) = y := by
  have hps : y.length ≤ (ms.out_m.zip ms.out_s).length := by
    rw [List.length_zip ms.out_m ms.out_s]
    omega
  exact zipWith_affine_roundtrip y _ hps
    (fun p hp => hs p.2 (List.of_mem_zip hp).2)

/-- Witness for C9 at concrete statistics `out_m = [2]`, `out_s = [3]`
and `y = [5]`. -/
theorem claim_C9_witness :
    denormalize_output ⟨[], [], [2], [3]⟩
      (normalize_target ⟨[], [], [2], [3]⟩ [5]) = [5] :=
  claim_C9 ⟨[], [], [2], [3]⟩ [5] (by decide) (by decide) (by decide)

/-- Claim C8: the framing of a row fails (the tiling branch's
`ceil(trunc_len / true_frame_num)` divides by zero, a Python
`ZeroDivisionError` modelled as `none`) exactly when
`true_frame_num = dlen / hop` is zero; there is no guard before that
division, and every row with at least one true frame is processed
totally. -/
theorem claim_C8 (r : ℚ) (x : Nat → ℚ) (hop trunc_len dlen : Nat) :
    frameRow r x hop trunc_len dlen = none ↔ dlen / hop = 0 := by
  by_cases hT : dlen / hop > trunc_len
  · have hne : dlen / hop ≠ 0 := by omega
    simp [frameRow, hT, hne]
  · by_cases hz : dlen / hop = 0 <;> simp [frameRow, hT, hz]

/-- Claim C10: in the random-crop branch, for every ambient draw
`r ∈ [0,1)` and every row with `true_frame_count > trunc_len`, the
selected offset is at most `true_frame_count - trunc_len - 1`; the
maximal offset `true_frame_count - trunc_len` is never selected, and the
last extracted frame (index `true_frame_count - 1`) never lies in the
cropped window `[pos, pos + trunc_len)`. -/
theorem claim_C10 (r : ℚ) (T L : Nat) (hr0 : 0 ≤ r) (hr1 : r < 1)
    (hTL : L < T) :
    crop_pos r T L ≤ T - L - 1 ∧
    crop_pos r T L ≠ T - L ∧
    ∀ j, j < L → crop_pos r T L + j < T - 1 := by
  have hkey := crop_pos_lt r T L hr0 hr1 hTL
  refine ⟨by omega, by omega, fun j hj => by omega⟩

/-- Witness for C10 at `r = 1/2`, `T = 5`, `L = 3`:
the selected offset is at most `1`. -/
theorem claim_C10_witness : crop_pos (1/2 : ℚ) 5 3 ≤ 5 - 3 - 1 :=
  (claim_C10 (1/2 : ℚ) 5 3 (by norm_num) (by norm_num) (by norm_num)).1

/-- Counterexample to claim C3 as stated.  At `T = 5`, `L = 3` the
claim asserts every offset of the inclusive range `[0, 2]` is a
possible outcome; in fact the offsets attainable over all draws
`r ∈ [0,1)` are exactly `{0, 1}` — the maximal offset `2 = T - L` is
never produced. -/
theorem claim_C3_counterexample :
    Set.image (fun r : ℚ => crop_pos r 5 3) (Set.Ico 0 1) = Set.Iio 2 := by
  ext k
  simp only [Set.mem_image, Set.mem_Ico, Set.mem_Iio]
  constructor
  · rintro ⟨r, ⟨hr0, hr1⟩, hk⟩
    have hlt := crop_pos_lt r 5 3 hr0 hr1 (by norm_num)
    omega
  · intro hk
    obtain ⟨h0, h1, he⟩ := crop_pos_achieves k 5 3 (by omega)
    exact ⟨_, ⟨h0, h1⟩, he⟩

/-- Claim C3 as amended: for a row with `true_frame_count > trunc_len`
the output is the contiguous window of exactly `trunc_len` frames of the
extracted feature map starting at `crop_pos r T L`; the offset always
lies in `[0, T - L - 1]`, and every offset of that inclusive range is a
possible outcome of some draw in `[0,1)`. -/
theorem claim_C3_amended {α : Type} (r : ℚ) (x : Nat → α)
    (hop L dlen : Nat) (hr0 : 0 ≤ r) (hr1 : r < 1)
    (hT : L < dlen / hop) :
    frameRow r x hop L dlen =
      some ((List.range L).map (fun j => x (crop_pos r (dlen / hop) L + j))) ∧
    crop_pos r (dlen / hop) L ≤ dlen / hop - L - 1 ∧
    ∀ k, k ≤ dlen / hop - L - 1 →
      ∃ r2 : ℚ, 0 ≤ r2 ∧ r2 < 1 ∧ crop_pos r2 (dlen / hop) L = k := by
  refine ⟨by simp [frameRow, hT], ?_, ?_⟩
  · have := crop_pos_lt r (dlen / hop) L hr0 hr1 hT
    omega
  · intro k hk
    obtain ⟨h0, h1, he⟩ := crop_pos_achieves k (dlen / hop) L (by omega)
    exact ⟨_, h0, h1, he⟩

/-- Witness for the amended C3 at `r = 0`, `hop = 1`, `L = 3`,
`dlen = 5`, identity frame content: the output is the window starting at
offset `0`. -/
theorem claim_C3_amended_witness :
    frameRow (0 : ℚ) (fun j => (j : ℚ)) 1 3 5 = some [0, 1, 2] := by
  have h := (claim_C3_amended (0 : ℚ) (fun j => (j : ℚ)) 1 3 5
    (by norm_num) (by norm_num) (by norm_num)).1
  rw [h]
  simp [crop_pos, List.range_succ]

/-- Claim C4: for a row with `0 < true_frame_count ≤ trunc_len` the
framer output exists, has exactly `trunc_len` frames, its first
`true_frame_count` frames are the original extracted frames, and frame
`j` equals extracted frame `j mod true_frame_count` throughout. -/
theorem claim_C4 {α : Type} (r : ℚ) (x : Nat → α) (hop L dlen : Nat)
    (hT0 : 0 < dlen / hop) (hTL : dlen / hop ≤ L) :
    frameRow r x hop L dlen =
      some ((List.range L).map (fun j => x (j % (dlen / hop)))) ∧
    ((List.range L).map (fun j => x (j % (dlen / hop)))).length = L ∧
    (∀ j, j < L →
      ((List.range L).map (fun j => x (j % (dlen / hop))))[j]? =
        some (x (j % (dlen / hop)))) ∧
    (∀ j, j < dlen / hop →
      ((List.range L).map (fun j => x (j % (dlen / hop))))[j]? =
        some (x j)) := by
  have hnotgt : ¬ (dlen / hop > L) := by omega
  have hne : ¬ (dlen / hop = 0) := by omega
  have hrep : L ≤ ((L + dlen / hop - 1) / (dlen / hop)) * (dlen / hop) :=
    ceil_div_mul_ge L (dlen / hop) hT0
  refine ⟨?_, by simp, ?_, ?_⟩
  · simp only [frameRow, hnotgt, hne, if_neg, if_false]
    rw [← List.map_take, List.take_range, Nat.min_eq_left hrep]
  · intro j hj
    rw [List.getElem?_map, List.getElem?_range hj]
    rfl
  · intro j hj
    have hjL : j < L := lt_of_lt_of_le hj hTL
    rw [List.getElem?_map, List.getElem?_range hjL]
    simp [Nat.mod_eq_of_lt hj]

/-- Witness for C4 at `r = 0`, `hop = 1`, `L = 5`, `dlen = 2`
(`true_frame_count = 2`): the two extracted frames are tiled to five
frames, `[x0, x1, x0, x1, x0]`. -/
theorem claim_C4_witness :
    frameRow (0 : ℚ) (fun j => (j : ℚ)) 1 5 2 = some [0, 1, 0, 1, 0] := by
  have h := (claim_C4 (0 : ℚ) (fun j => (j : ℚ)) 1 5 2
    (by norm_num) (by norm_num)).1
  rw [h]
  simp [List.range_succ]

/-- A singleton batch: the embedding buffer is one row per member. -/
theorem compute_embedding_singleton {α β : Type} (members : List (α → β))
    (x : α) : compute_embedding members [x] = members.map (fun m => m x) := by
  induction members with
  | nil => rfl
  | cons m rest ih =>
      simp only [compute_embedding, List.map_cons, List.flatten_cons] at ih ⊢
      rw [ih]
      rfl

/-- With one row per member (`B = 1`), the slice loop pairs member `i`
with row `i`. -/
theorem compute_score_rows_one {β : Type} :
    ∀ (angles : List (β → Bool → ℚ × ℚ)) (ang : Bool) (fv : List β),
      fv.length = angles.length →
      compute_score_rows angles ang 1 fv =
        List.zipWith (fun a v => a v ang) angles fv
  | [], _, fv, h => by
      have hfv : fv = [] := List.length_eq_zero.mp (by simpa using h)
      subst hfv
      rfl
  | a :: rest, ang, v :: fvr, h => by
      have ih := compute_score_rows_one rest ang fvr (by simpa using h)
      simp [compute_score_rows, ih]

/-- Claim C5: the embedding buffer has exactly `batch * N` rows, member
`i`'s embeddings occupy rows `[i*batch, (i+1)*batch)` (stacked, not
interleaved), and both angular-scorer output columns use the identical
row layout. -/
theorem claim_C5 {α β : Type} (members : List (α → β))
    (angles : List (β → Bool → ℚ × ℚ)) (batch : List α) (ang : Bool)
    (i b : Nat) (hi : i < members.length) (hi2 : i < angles.length)
    (hb : b < batch.length) (hlen : angles.length = members.length) :
    (compute_embedding members batch).length =
      batch.length * members.length ∧
    (compute_embedding members batch)[i * batch.length + b]? =
      some (members.get ⟨i, hi⟩ (batch.get ⟨b, hb⟩)) ∧
    ((compute_score angles (compute_embedding members batch) ang).1).length =
      batch.length * members.length ∧
    ((compute_score angles (compute_embedding members batch) ang).2).length =
      batch.length * members.length ∧
    ((compute_score angles (compute_embedding members batch) ang).1)[i * batch.length + b]? =
      some ((angles.get ⟨i, hi2⟩)
        (members.get ⟨i, hi⟩ (batch.get ⟨b, hb⟩)) ang).1 ∧
    ((compute_score angles (compute_embedding members batch) ang).2)[i * batch.length + b]? =
      some ((angles.get ⟨i, hi2⟩)
        (members.get ⟨i, hi⟩ (batch.get ⟨b, hb⟩)) ang).2 := by
  have hblocks : ∀ l ∈ members.map (fun m => batch.map m),
      l.length = batch.length := by
    intro l hl
    obtain ⟨m, _, rfl⟩ := List.mem_map.mp hl
    exact List.length_map _ _
  have hembl : (compute_embedding members batch).length =
      members.length * batch.length := by
    have h := flatten_length_uniform (members.map (fun m => batch.map m))
      batch.length hblocks
    simpa [compute_embedding] using h
  have hi' : i < (members.map (fun m => batch.map m)).length := by
    simpa using hi
  have hget : (compute_embedding members batch)[i * batch.length + b]? =
      some (members.get ⟨i, hi⟩ (batch.get ⟨b, hb⟩)) := by
    have h1 := flatten_getElem_uniform (members.map (fun m => batch.map m))
      batch.length i b hblocks hi' hb
    rw [compute_embedding, h1]
    simp [List.get_eq_getElem, List.getElem?_eq_getElem hb]
  have hN : 0 < angles.length := Nat.lt_of_le_of_lt (Nat.zero_le _) hi2
  have hfvlen : (compute_embedding members batch).length =
      angles.length * batch.length := by
    rw [hembl, hlen]
  have hBr : (compute_embedding members batch).length / angles.length =
      batch.length := by
    rw [hfvlen, Nat.mul_div_cancel_left _ hN]
  have hcs : compute_score angles (compute_embedding members batch) ang =
      ((compute_score_rows angles ang batch.length
          (compute_embedding members batch)).map Prod.fst,
       (compute_score_rows angles ang batch.length
          (compute_embedding members batch)).map Prod.snd) := by
    simp only [compute_score]
    rw [hBr]
  have hrows_len := compute_score_rows_length angles ang batch.length
    (compute_embedding members batch) hfvlen
  have hrows_get := compute_score_rows_getElem angles ang batch.length
    (compute_embedding members batch) i b hfvlen hi2 hb
  refine ⟨by rw [hembl, Nat.mul_comm], hget, ?_, ?_, ?_, ?_⟩
  · rw [hcs]
    simp [hrows_len, hembl, Nat.mul_comm]
  · rw [hcs]
    simp [hrows_len, hembl, Nat.mul_comm]
  · rw [hcs]
    simp [List.getElem?_map, hrows_get, hget]
  · rw [hcs]
    simp [List.getElem?_map, hrows_get, hget]

/-- Witness for C5 with two members, two angular projections and a
two-row batch, at member `i = 1`, row `b = 0`: the embedding buffer's
row `1 * 2 + 0 = 2` is member 1 applied to batch row 0. -/
theorem claim_C5_witness :
    (compute_embedding [fun v : ℚ => v, fun v : ℚ => v + 10]
      [(0 : ℚ), 1]).length = 2 * 2 ∧
    (compute_embedding [fun v : ℚ => v, fun v : ℚ => v + 10]
      [(0 : ℚ), 1])[1 * 2 + 0]? = some ((0 : ℚ) + 10) := by
  have h := claim_C5 [fun v : ℚ => v, fun v : ℚ => v + 10]
    [fun v _ => (v, v), fun v _ => (2 * v, v)] [(0 : ℚ), 1] true 1 0
    (by norm_num) (by norm_num) (by norm_num) (by norm_num)
  exact ⟨h.1, h.2.1⟩

/-- Claim C6: the protocol table maps a row's second column to `1` when
the row's last column is `"bonafide"` and to `0` otherwise; resolving a
list of filenames all present in the table returns their labels in
order, and resolving a list containing a missing filename produces the
fatal error outcome instead of returning, with the missing filename
contained in the reported list. -/
theorem claim_C6 (rows : List (List String)) (row : List String)
    (goodNames badNames : List String) (m : String)
    (hgood : ∀ f ∈ goodNames, (protocol_parse rows f).isSome)
    (hm : protocol_parse rows m = none) (hmem : m ∈ badNames) :
    protocol_parse (rows ++ [row]) (row.getD 1 "") =
      some (if row.getLast? = some "bonafide" then 1 else 0) ∧
    get_target (protocol_parse rows) goodNames =
      Except.ok (goodNames.map (fun f => (protocol_parse rows f).getD 0)) ∧
    ∃ e, get_target (protocol_parse rows) badNames = Except.error e ∧
      m ∈ e := by
  refine ⟨?_, ?_, ?_⟩
  · simp [protocol_parse, List.foldl_append]
  · rw [get_target, if_pos]
    rw [List.all_eq_true]
    intro f hf
    exact hgood f hf
  · refine ⟨badNames, ?_, hmem⟩
    rw [get_target, if_neg]
    intro hall
    rw [List.all_eq_true] at hall
    have h := hall m hmem
    rw [hm] at h
    simp at h

/-- Witness for C6 on a two-row protocol listing: the bonafide row
yields label 1, the spoof row label 0, in request order. -/
theorem claim_C6_witness :
    get_target
      (protocol_parse [["s1", "f1", "x", "bonafide"], ["s2", "f2", "x", "spoof"]])
      ["f1", "f2"] = Except.ok [1, 0] := by
  have h := claim_C6
    [["s1", "f1", "x", "bonafide"], ["s2", "f2", "x", "spoof"]] []
    ["f1", "f2"] ["f1", "f3"] "f3" (by decide) (by decide) (by decide)
  rw [h.2.1]
  rfl

/-- Claim C7: in training mode the forward pass returns the batch's
label vector replicated once per ensemble member — length
`N * batch`, entry `i*batch + b` equals label `b`, hence the block
`[i*batch, (i+1)*batch)` is an exact repeat of the block `[0, batch)`,
matching the embedding/score row layout. -/
theorem claim_C7 {α β : Type} (members : List (α → β))
    (angles : List (β → Bool → ℚ × ℚ)) (ptable : String → Option Nat)
    (batch : List α) (filenames : List String) (labels : List Nat)
    (htgt : get_target ptable filenames = Except.ok labels)
    (i b : Nat) (hi : i < members.length) (hb : b < labels.length) :
    forward_train members angles ptable batch filenames =
      Except.ok (compute_score angles (compute_embedding members batch) false,
        target_repeat labels members.length, true) ∧
    (target_repeat labels members.length).length =
      members.length * labels.length ∧
    (target_repeat labels members.length)[i * labels.length + b]? =
      labels[b]? ∧
    (target_repeat labels members.length)[i * labels.length + b]? =
      (target_repeat labels members.length)[b]? := by
  have hblocks : ∀ l ∈ List.replicate members.length labels,
      l.length = labels.length :=
    fun l hl => by rw [List.eq_of_mem_replicate hl]
  have hrep : ∀ i0 : Nat, i0 < members.length → ∀ b0 : Nat, b0 < labels.length →
      (target_repeat labels members.length)[i0 * labels.length + b0]? =
        labels[b0]? := by
    intro i0 hi0 b0 hb0
    have hi0' : i0 < (List.replicate members.length labels).length := by
      simpa using hi0
    have h := flatten_getElem_uniform (List.replicate members.length labels)
      labels.length i0 b0 hblocks hi0' hb0
    rw [target_repeat, h]
    simp only [List.get_eq_getElem, List.getElem_replicate]
  refine ⟨?_, ?_, hrep i hi b hb, ?_⟩
  · simp only [forward_train]
    rw [htgt]
    rfl
  · have h := flatten_length_uniform (List.replicate members.length labels)
      labels.length hblocks
    simp [target_repeat, h]
  · have h0 := hrep 0 (by omega) b hb
    rw [Nat.zero_mul, Nat.zero_add] at h0
    rw [hrep i hi b hb, h0]

/-- Witness for C7 with two files (labels 1 and 0) and two members:
the replicated target vector is `[1, 0, 1, 0]`. -/
theorem claim_C7_witness :
    forward_train [fun v : ℚ => v, fun v : ℚ => v + 10]
      [fun v _ => (v, v), fun v _ => (2 * v, v)]
      (protocol_parse [["s1", "f1", "x", "bonafide"], ["s2", "f2", "x", "spoof"]])
      [(0 : ℚ), 1] ["f1", "f2"] =
      Except.ok (compute_score [fun v _ => (v, v), fun v _ => (2 * v, v)]
        (compute_embedding [fun v : ℚ => v, fun v : ℚ => v + 10] [(0 : ℚ), 1])
        false,
        target_repeat [1, 0] 2, true) ∧
    target_repeat [1, 0] 2 = [1, 0, 1, 0] := by
  have h := claim_C7 [fun v : ℚ => v, fun v : ℚ => v + 10]
    [fun v _ => (v, v), fun v _ => (2 * v, v)]
    (protocol_parse [["s1", "f1", "x", "bonafide"], ["s2", "f2", "x", "spoof"]])
    [(0 : ℚ), 1] ["f1", "f2"] [1, 0] (by rfl) 1 1 (by norm_num) (by norm_num)
  exact ⟨h.1, by decide⟩

/-- Counterexample to claim C2 as stated.  With a batch of two
utterances (`B = 2`, `N = 1`, per-member cosines 0 for `f1` and 1 for
`f2`), the inference forward pass emits exactly ONE line — for the first
utterance only — whose score `1/2` is the mean over the whole `B·N`
cosine buffer, not the first utterance's own per-member mean `0`; the
claim demands two lines with per-utterance means. -/
theorem claim_C2_counterexample :
    forward_infer [fun v : ℚ => v] [fun v _ => (v, v)]
      (protocol_parse [["s1", "f1", "x", "bonafide"], ["s2", "f2", "x", "spoof"]])
      [(0 : ℚ), 1] ["f1", "f2"] =
      Except.ok [("f1", 1, 1/2)] := by
  have htgt : get_target
      (protocol_parse [["s1", "f1", "x", "bonafide"], ["s2", "f2", "x", "spoof"]])
      ["f1", "f2"] = Except.ok [1, 0] := by rfl
  have hemb : compute_embedding [fun v : ℚ => v] [(0 : ℚ), 1] = [(0 : ℚ), 1] := rfl
  have hcos : (compute_score [fun v _ => (v, v)] [(0 : ℚ), 1] true).1 = [0, 1] := rfl
  have hmean : listMean [(0 : ℚ), 1] = 1/2 := by norm_num [listMean]
  simp only [forward_infer]
  rw [htgt, hemb, hcos, hmean]
  rfl

/-- Claim C2 as amended: in inference mode the forward pass emits
exactly one line, holding the first utterance's filename, its resolved
label, and the mean of the whole cosine buffer; for a batch of one
utterance that score is precisely the arithmetic mean of the utterance's
`N` per-member cosine values. -/
theorem claim_C2_amended {α β : Type} (members : List (α → β))
    (angles : List (β → Bool → ℚ × ℚ)) (ptable : String → Option Nat)
    (x : α) (f : String) (labels : List Nat)
    (hne : members ≠ []) (hlen : angles.length = members.length)
    (htgt : get_target ptable [f] = Except.ok labels) :
    forward_infer members angles ptable [x] [f] =
      Except.ok [(f, labels.getD 0 0,
        listMean (List.zipWith (fun a m => (a (m x) true).1)
          angles members))] := by
  have hemb := compute_embedding_singleton members x
  have hN : 0 < members.length := List.length_pos.mpr hne
  have hfvlen : (compute_embedding members [x]).length = angles.length := by
    rw [hemb, List.length_map, hlen]
  have hB : (compute_embedding members [x]).length / angles.length = 1 := by
    rw [hfvlen, Nat.div_self (by omega)]
  have hrows := compute_score_rows_one angles true
    (compute_embedding members [x]) hfvlen
  have hcs : (compute_score angles (compute_embedding members [x]) true).1 =
      List.zipWith (fun a m => (a (m x) true).1) angles members := by
    simp only [compute_score]
    rw [hB, hrows, hemb, List.zipWith_map_right, List.map_zipWith]
  simp only [forward_infer]
  rw [htgt, hcs]
  rfl

/-- Witness for the amended C2 with one utterance and two members whose
cosines are 1 and 4: the single emitted score is their mean `5/2`. -/
theorem claim_C2_amended_witness :
    forward_infer [fun v : ℚ => v, fun v : ℚ => v + 1]
      [fun v _ => (v, v), fun v _ => (2 * v, v)]
      (protocol_parse [["s1", "f1", "x", "bonafide"]]) [(1 : ℚ)] ["f1"] =
      Except.ok [("f1", 1, 5/2)] := by
  have h := claim_C2_amended [fun v : ℚ => v, fun v : ℚ => v + 1]
    [fun v _ => (v, v), fun v _ => (2 * v, v)]
    (protocol_parse [["s1", "f1", "x", "bonafide"]]) (1 : ℚ) "f1" [1]
    (List.cons_ne_nil _ _) (by norm_num) (by rfl)
  rw [h]
  norm_num [listMean]

end AsvModel
